import Mathlib

/-!
Shallow embedding of the merkle-tree-rs library (src/lib.rs, src/tree.rs)
and proofs about it.

Modelling conventions:
- Byte sequences (`Vec<u8>`, `&[u8]`) are `List Nat` (`Bytes`).
- `calculate_hash` (Blake2b) is an external collaborator per the design:
  a pure function from bytes to a digest. It is a parameter `h : HashFn`
  threaded through every definition that the Rust code would call
  `calculate_hash` from; `MerkleNode::new` additionally takes its own
  `hash_fn` parameter exactly as in the source.
- The `AsRef<[u8]>` bound on `T` is a parameter `asRef : α → Bytes`.
- `build_until_root` is general recursion in Rust; here it takes a fuel
  argument. `BuildResult.timeout` marks fuel exhaustion (the Rust code
  would still be running), `BuildResult.panic` marks the `unwrap` panic
  on a `None` right-hand element, `BuildResult.ok` a normal return.
  `from_vec` passes fuel `data.length + 1`, which exceeds the maximal
  recursion depth (one call per level, at most `log2 n + 2` calls) for
  every non-empty input, so only the genuinely divergent empty-input
  case times out.
-/

/-- Byte sequences: `Vec<u8>` / `&[u8]`. -/
abbrev Bytes : Type := List Nat

/-- The hash capability `type HashFn = Fn(&[u8]) -> Vec<u8>`. -/
abbrev HashFn : Type := Bytes → Bytes

/-- The struct `MerkleLeaf<T> { hash: Vec<u8>, data: T }`. -/
structure MerkleLeaf (α : Type) where
  hash : Bytes
  data : α

mutual

/-- The enum `Node<T> { Node(MerkleNode<T>), Leaf(MerkleLeaf<T>) }`. -/
inductive Node (α : Type) : Type where
| node : MerkleNode α → Node α
| leaf : MerkleLeaf α → Node α

/-- The struct `MerkleNode<T> { hash: Vec<u8>, left: Box<Node<T>>, right: Box<Node<T>> }`. -/
inductive MerkleNode (α : Type) : Type where
| mk : Bytes → Node α → Node α → MerkleNode α

end

/-- Field `hash` of `MerkleNode`. -/
def MerkleNode.hash {α : Type} : MerkleNode α → Bytes
| .mk hs _ _ => hs

/-- Field `left` of `MerkleNode` (the `Box` indirection disappears). -/
def MerkleNode.left {α : Type} : MerkleNode α → Node α
| .mk _ l _ => l

/-- Field `right` of `MerkleNode`. -/
def MerkleNode.right {α : Type} : MerkleNode α → Node α
| .mk _ _ r => r

/-- The method `Node::hash`: project the digest out of either variant. -/
def Node.hash {α : Type} : Node α → Bytes
| .node n => n.hash
| .leaf l => l.hash

/-- The struct `MerkleTree<T> { root: Node<T> }`. -/
structure MerkleTree (α : Type) where
  root : Node α

/-- The method `MerkleNode::new(hash_fn, left, right)`: concatenate the two
child digests, left first, hash the concatenation, and store both children. -/
def MerkleNode.new {α : Type} (hashFn : HashFn) (left right : Node α) : MerkleNode α :=
  .mk (hashFn (left.hash ++ right.hash)) left right

/-- The impl `From<T> for MerkleLeaf<T>` (`from` is a Lean keyword, hence
`fromData`): hash the byte view of the item and store the item. -/
def MerkleLeaf.fromData {α : Type} (h : HashFn) (asRef : α → Bytes) (data : α) : MerkleLeaf α :=
  { hash := h (asRef data), data := data }

/-- Outcome of a `build_until_root` call under the fuel discipline. -/
inductive BuildResult (α : Type) : Type where
| ok : α → BuildResult α
| panic : BuildResult α
| timeout : BuildResult α

/-- One iteration of the `while left.is_some()` pairing loop of
`build_until_root`, over the whole level: pairs `(entry[2i], entry[2i+1])`
left to right, each pair becoming `Node::Node(MerkleNode::new(h, l, r))`.
A lone left element means `right.unwrap()` panics: `none`. -/
def pairPass {α : Type} (h : HashFn) : List (Node α) → Option (List (Node α))
| [] => some []
| [_] => none
| a :: b :: rest => (pairPass h rest).map (fun l => Node.node (MerkleNode.new h a b) :: l)

/-- The method `MerkleTree::build_until_root`: return the single entry if the
level has exactly one, otherwise pair the level up and recurse. On the empty
level the pairing loop body never runs and the call recurses on the empty
level again, which the fuel renders as `timeout`. -/
def buildUntilRoot {α : Type} (h : HashFn) : Nat → List (Node α) → BuildResult (Node α)
| 0, _ => .timeout
| fuel + 1, nodes =>
  match nodes with
  | [x] => .ok x
  | _ =>
    match pairPass h nodes with
    | none => .panic
    | some next => buildUntilRoot h fuel next

/-- The method `MerkleTree::from_vec`: map every item to a leaf (hashing its
byte view), in input order, then reduce with `build_until_root`. -/
def MerkleTree.fromVec {α : Type} (h : HashFn) (asRef : α → Bytes) (data : List α) :
    BuildResult (MerkleTree α) :=
  match buildUntilRoot h (data.length + 1)
      (data.map (fun d => Node.leaf (MerkleLeaf.fromData h asRef d))) with
  | .ok root => .ok { root := root }
  | .panic => .panic
  | .timeout => .timeout

/-- The impl `PartialEq for MerkleTree`: compare the root digests only. -/
def MerkleTree.beq {α : Type} (t1 t2 : MerkleTree α) : Bool :=
  t1.root.hash == t2.root.hash

/-- The root that `from_vec` produces on a four-item input, spelled out:
two first-level pairs, one second-level pair. -/
def quadRoot {α : Type} (h : HashFn) (asRef : α → Bytes) (a b c d : α) : MerkleTree α :=
  { root := Node.node (MerkleNode.new h
      (Node.node (MerkleNode.new h
        (Node.leaf (MerkleLeaf.fromData h asRef a))
        (Node.leaf (MerkleLeaf.fromData h asRef b))))
      (Node.node (MerkleNode.new h
        (Node.leaf (MerkleLeaf.fromData h asRef c))
        (Node.leaf (MerkleLeaf.fromData h asRef d))))) }

/-- C5: `MerkleNode::new(h, L, R)` hashes L's digest immediately followed by
R's digest, left first, and stores L and R unchanged as left and right. -/
theorem merkleNode_new_spec {α : Type} (hashFn : HashFn) (L R : Node α) :
    (MerkleNode.new hashFn L R).hash = hashFn (L.hash ++ R.hash) ∧
    (MerkleNode.new hashFn L R).left = L ∧
    (MerkleNode.new hashFn L R).right = R :=
  ⟨rfl, rfl, rfl⟩

/-- C6: `MerkleLeaf::from(x)` yields a leaf whose hash is the hash of the byte
view of x and whose data field is x itself; the construction is total. -/
theorem merkleLeaf_from_spec {α : Type} (h : HashFn) (asRef : α → Bytes) (x : α) :
    (MerkleLeaf.fromData h asRef x).hash = h (asRef x) ∧
    (MerkleLeaf.fromData h asRef x).data = x :=
  ⟨rfl, rfl⟩

/-- C7: `MerkleTree::from_vec(vec![x])` returns a tree whose root is the leaf
for x directly, carrying the hash of the byte view of x; no pairing runs. -/
theorem fromVec_single_spec {α : Type} (h : HashFn) (asRef : α → Bytes) (x : α) :
    MerkleTree.fromVec h asRef [x] =
      .ok { root := Node.leaf { hash := h (asRef x), data := x } } :=
  rfl

/-- C1: `from_vec` turns every item into a leaf in input order and reduces
left to right into non-overlapping pairs until one root remains; on a
four-item input `[a, b, c, d]` the root is
`Node(Node(Leaf a, Leaf b), Node(Leaf c, Leaf d))`, which at the byte
strings "a", "b", "c", "d" is the concrete scenario of the spec. -/
theorem fromVec_quad_spec :
    (∀ (α : Type) (h : HashFn) (asRef : α → Bytes) (a b c d : α),
      MerkleTree.fromVec h asRef [a, b, c, d] = .ok (quadRoot h asRef a b c d)) ∧
    (∀ (h : HashFn),
      MerkleTree.fromVec h id [[97], [98], [99], [100]] =
        .ok (quadRoot h id [97] [98] [99] [100])) :=
  ⟨fun _ _ _ _ _ _ _ => rfl, fun _ => rfl⟩

/-- C2: tree equality holds iff the root digests are byte-for-byte equal;
concretely, under a constant hash, the trees `from_vec` builds from the
different item sequences `[[0]]` and `[[1]]` compare equal. -/
theorem tree_eq_iff_root_digest :
    (∀ (α : Type) (t1 t2 : MerkleTree α),
      MerkleTree.beq t1 t2 = true ↔ t1.root.hash = t2.root.hash) ∧
    (MerkleTree.fromVec (fun _ => []) id [[0]] =
        .ok { root := Node.leaf { hash := [], data := [0] } } ∧
     MerkleTree.fromVec (fun _ => []) id [[1]] =
        .ok { root := Node.leaf { hash := [], data := [1] } } ∧
     MerkleTree.beq { root := Node.leaf { hash := [], data := ([0] : Bytes) } }
                    { root := Node.leaf { hash := [], data := ([1] : Bytes) } } = true) :=
  ⟨fun _ t1 t2 => by simp [MerkleTree.beq], rfl, rfl, rfl⟩

/-- Helper: the pairing loop panics on a level of odd length (the lone last
element has `right = None` and `right.unwrap()` aborts). -/
theorem pairPass_odd {α : Type} (h : HashFn) :
    ∀ (l : List (Node α)), l.length % 2 = 1 → pairPass h l = none
| [], hl => by simp at hl
| [_], _ => rfl
| a :: b :: rest, hl => by
    have hr : rest.length % 2 = 1 := by simp [List.length_cons] at hl; omega
    simp [pairPass, pairPass_odd h rest hr]

/-- Helper: the pairing loop on a level of even length succeeds and halves
the length. -/
theorem pairPass_even {α : Type} (h : HashFn) :
    ∀ (l : List (Node α)), l.length % 2 = 0 →
      ∃ l', pairPass h l = some l' ∧ 2 * l'.length = l.length
| [], _ => ⟨[], rfl, rfl⟩
| [_], hl => by simp at hl
| a :: b :: rest, hl => by
    have hr : rest.length % 2 = 0 := by simp [List.length_cons] at hl; omega
    obtain ⟨l', hsome, hlen⟩ := pairPass_even h rest hr
    exact ⟨Node.node (MerkleNode.new h a b) :: l',
      by simp [pairPass, hsome], by simp [List.length_cons]; omega⟩

/-- Helper: one unfolding of `buildUntilRoot` on a level of two or more
entries. -/
theorem buildUntilRoot_cons_cons {α : Type} (h : HashFn) (fuel : Nat)
    (a b : Node α) (rest : List (Node α)) :
    buildUntilRoot h (fuel + 1) (a :: b :: rest) =
      match pairPass h (a :: b :: rest) with
      | none => BuildResult.panic
      | some next => buildUntilRoot h fuel next :=
  rfl

/-- Helper: on the empty level the recursion never reaches a base case, so
every fuel budget is exhausted. -/
theorem buildUntilRoot_nil_timeout {α : Type} (h : HashFn) :
    ∀ (fuel : Nat), buildUntilRoot h fuel ([] : List (Node α)) = .timeout
| 0 => rfl
| fuel + 1 => buildUntilRoot_nil_timeout h fuel

/-- Helper: on a non-empty level, fuel equal to the level length is enough
for the recursion to reach a base case (each call at least halves the level,
or stops). -/
theorem buildUntilRoot_ne_timeout_of_le {α : Type} (h : HashFn) (n : Nat) :
    ∀ (fuel : Nat) (l : List (Node α)), l.length = n → 0 < n → n ≤ fuel →
      buildUntilRoot h fuel l ≠ .timeout := by
  induction n using Nat.strong_induction_on with
  | _ n ih =>
    intro fuel l hlen hpos hfuel
    match fuel, l with
    | 0, l => omega
    | fuel + 1, [] => simp at hlen; omega
    | fuel + 1, [x] => simp [buildUntilRoot]
    | fuel + 1, a :: b :: rest =>
      rw [buildUntilRoot_cons_cons]
      rcases Nat.mod_two_eq_zero_or_one (a :: b :: rest).length with he | ho
      · obtain ⟨l', hsome, hhalf⟩ := pairPass_even h (a :: b :: rest) he
        rw [hsome]
        have hrest : 2 ≤ n := by simp [List.length_cons] at hlen; omega
        exact ih l'.length (by omega) fuel l' rfl (by omega) (by omega)
      · rw [pairPass_odd h (a :: b :: rest) ho]
        simp

/-- Helper: if some reduction level reached from the current one has an odd
entry count greater than one, `build_until_root` panics (fuel permitting). -/
theorem buildUntilRoot_panic_of_odd {α : Type} (h : HashFn) :
    ∀ (k : Nat) (m fuel : Nat) (l : List (Node α)), l.length = 2 ^ k * m →
      m % 2 = 1 → 1 < m → k < fuel → buildUntilRoot h fuel l = .panic
| 0, m, fuel, l, hlen, hodd, hm, hfuel => by
    match fuel, l with
    | fuel + 1, [] => simp at hlen; omega
    | fuel + 1, [x] => simp at hlen; omega
    | fuel + 1, a :: b :: rest =>
      rw [buildUntilRoot_cons_cons,
        pairPass_odd h (a :: b :: rest) (by simp at hlen ⊢; omega)]
| k + 1, m, fuel, l, hlen, hodd, hm, hfuel => by
    have hpow : 0 < 2 ^ k := Nat.pos_pow_of_pos k (by omega)
    have hq : 2 ^ (k + 1) * m = 2 * (2 ^ k * m) := by rw [Nat.pow_succ]; ring
    have hB : 0 < 2 ^ k * m := Nat.mul_pos hpow (by omega)
    match fuel, l with
    | fuel + 1, [] => simp at hlen; omega
    | fuel + 1, [x] => simp at hlen; omega
    | fuel + 1, a :: b :: rest =>
      have heven : (a :: b :: rest).length % 2 = 0 := by omega
      obtain ⟨l', hsome, hhalf⟩ := pairPass_even h (a :: b :: rest) heven
      rw [buildUntilRoot_cons_cons, hsome]
      exact buildUntilRoot_panic_of_odd h k m fuel l' (by omega) hodd hm (by omega)

/-- C3: an input whose length is `2 ^ k * m` with `m` odd and greater than
one reaches a reduction level of odd entry count greater than one after `k`
halvings, and there `from_vec` fails (the `right.unwrap()` abort) instead of
returning a tree. -/
theorem fromVec_odd_level_panics {α : Type} (h : HashFn) (asRef : α → Bytes)
    (data : List α) (k m : Nat) (hlen : data.length = 2 ^ k * m)
    (hodd : m % 2 = 1) (hm : 1 < m) :
    MerkleTree.fromVec h asRef data = .panic := by
  have hk : k < 2 ^ k := Nat.lt_two_pow k
  have hk2 : 2 ^ k * 1 ≤ 2 ^ k * m := Nat.mul_le_mul_left _ (by omega)
  have hmap :
      (data.map (fun d => Node.leaf (MerkleLeaf.fromData h asRef d))).length = 2 ^ k * m := by
    simp [hlen]
  have hpanic := buildUntilRoot_panic_of_odd h k m (data.length + 1) _ hmap hodd hm (by omega)
  unfold MerkleTree.fromVec
  rw [hpanic]

/-- Witness for C3 at the three-item input of the spec scenario. -/
theorem fromVec_odd_level_panics_witness :
    ([[0], [1], [2]] : List Bytes).length = 2 ^ 0 * 3 ∧ 3 % 2 = 1 ∧ (1 : Nat) < 3 ∧
    MerkleTree.fromVec id id [[0], [1], [2]] = .panic :=
  ⟨rfl, rfl, by omega,
    fromVec_odd_level_panics id id [[0], [1], [2]] 0 3 rfl rfl (by omega)⟩

/-- C9: `build_until_root` on the empty level recurses on the empty level
forever (every fuel budget times out), so `from_vec []` never returns; on
any non-empty level, fuel bounded by the level length suffices, so the
recursion terminates. -/
theorem buildUntilRoot_termination :
    (∀ (α : Type) (h : HashFn) (fuel : Nat),
      buildUntilRoot h fuel ([] : List (Node α)) = .timeout) ∧
    (∀ (α : Type) (h : HashFn) (fuel : Nat) (l : List (Node α)),
      l ≠ [] → l.length ≤ fuel → buildUntilRoot h fuel l ≠ .timeout) :=
  ⟨fun _ h fuel => buildUntilRoot_nil_timeout h fuel,
   fun _ h fuel l hne hle =>
     buildUntilRoot_ne_timeout_of_le h l.length fuel l rfl
       (List.length_pos.mpr hne) hle⟩

/-- Witness for C9: the empty level times out at fuel 5; a one-leaf level
returns at fuel 1. -/
theorem buildUntilRoot_termination_witness :
    buildUntilRoot id 5 ([] : List (Node Bytes)) = .timeout ∧
    buildUntilRoot id 1 [Node.leaf { hash := [], data := ([] : Bytes) }] ≠ .timeout :=
  ⟨buildUntilRoot_termination.1 Bytes id 5,
   buildUntilRoot_termination.2 Bytes id 1
     [Node.leaf { hash := [], data := ([] : Bytes) }] (by simp) (by simp)⟩

mutual

/-- Digest consistency at every position of an entry: a leaf's hash is the
hash of its data's byte view, a node's hash is the hash of its left child's
digest concatenated with its right child's digest, recursively below. -/
def Node.consistentB {α : Type} (h : HashFn) (asRef : α → Bytes) : Node α → Bool
| .node n => MerkleNode.consistentB h asRef n
| .leaf l => l.hash == h (asRef l.data)

/-- Digest consistency of an internal node and of its whole subtree. -/
def MerkleNode.consistentB {α : Type} (h : HashFn) (asRef : α → Bytes) : MerkleNode α → Bool
| .mk hs l r =>
    (hs == h (Node.hash l ++ Node.hash r)) && Node.consistentB h asRef l
      && Node.consistentB h asRef r

end

/-- Helper: a freshly hashed leaf is consistent. -/
theorem consistentB_fromData {α : Type} (h : HashFn) (asRef : α → Bytes) (d : α) :
    Node.consistentB h asRef (Node.leaf (MerkleLeaf.fromData h asRef d)) = true := by
  simp [Node.consistentB, MerkleLeaf.fromData]

/-- Helper: `MerkleNode::new` of two consistent entries is consistent. -/
theorem consistentB_new {α : Type} (h : HashFn) (asRef : α → Bytes) (l r : Node α)
    (hl : Node.consistentB h asRef l = true) (hr : Node.consistentB h asRef r = true) :
    Node.consistentB h asRef (Node.node (MerkleNode.new h l r)) = true := by
  simp [Node.consistentB, MerkleNode.consistentB, MerkleNode.new, hl, hr]

/-- Helper: the pairing loop preserves consistency of every level entry. -/
theorem pairPass_consistent {α : Type} (h : HashFn) (asRef : α → Bytes) :
    ∀ (l next : List (Node α)),
      (∀ x ∈ l, Node.consistentB h asRef x = true) →
      pairPass h l = some next →
      ∀ x ∈ next, Node.consistentB h asRef x = true
| [], next, _, hp => by
    simp [pairPass] at hp
    subst hp
    simp
| [_], next, _, hp => by simp [pairPass] at hp
| a :: b :: rest, next, hall, hp => by
    cases hr : pairPass h rest with
    | none => rw [pairPass, hr] at hp; simp at hp
    | some l' =>
      rw [pairPass, hr] at hp
      simp only [Option.map] at hp
      injection hp with hp
      intro x hx
      rw [← hp] at hx
      rcases List.mem_cons.mp hx with hx1 | hx2
      · subst hx1
        exact consistentB_new h asRef a b (hall a (by simp)) (hall b (by simp))
      · exact pairPass_consistent h asRef rest l'
          (fun y hy => hall y (by simp [hy])) hr x hx2

/-- Helper: `build_until_root` on a level of consistent entries returns, if
it returns, a consistent root. -/
theorem buildUntilRoot_consistent {α : Type} (h : HashFn) (asRef : α → Bytes) :
    ∀ (fuel : Nat) (l : List (Node α)) (root : Node α),
      (∀ x ∈ l, Node.consistentB h asRef x = true) →
      buildUntilRoot h fuel l = .ok root →
      Node.consistentB h asRef root = true
| 0, l, root, _, hok => by exact BuildResult.noConfusion hok
| fuel + 1, [], root, _, hok => by
    rw [buildUntilRoot_nil_timeout h (fuel + 1)] at hok
    exact BuildResult.noConfusion hok
| fuel + 1, [x], root, hall, hok => by
    have hx : BuildResult.ok x = BuildResult.ok root := hok
    injection hx with hx
    subst hx
    exact hall x (by simp)
| fuel + 1, a :: b :: rest, root, hall, hok => by
    rw [buildUntilRoot_cons_cons] at hok
    cases hp : pairPass h (a :: b :: rest) with
    | none => rw [hp] at hok; exact BuildResult.noConfusion hok
    | some next =>
      rw [hp] at hok
      exact buildUntilRoot_consistent h asRef fuel next root
        (pairPass_consistent h asRef (a :: b :: rest) next hall hp) hok

/-- C4: every tree `from_vec` returns satisfies the digest-consistency
invariant at every position: each leaf's hash is the hash of its stored
data's byte view and each internal node's hash is the hash of its left
child's digest concatenated with its right child's digest. The embedding is
pure and the library exposes no mutation, so constructed entries never
change afterwards. -/
theorem fromVec_consistent {α : Type} (h : HashFn) (asRef : α → Bytes)
    (data : List α) (t : MerkleTree α)
    (hok : MerkleTree.fromVec h asRef data = .ok t) :
    Node.consistentB h asRef t.root = true := by
  unfold MerkleTree.fromVec at hok
  cases hb : buildUntilRoot h (data.length + 1)
      (data.map (fun d => Node.leaf (MerkleLeaf.fromData h asRef d))) with
  | ok root =>
    rw [hb] at hok
    injection hok with hok
    subst hok
    refine buildUntilRoot_consistent h asRef (data.length + 1) _ root ?_ hb
    intro x hx
    obtain ⟨d, _, hd⟩ := List.mem_map.mp hx
    rw [← hd]
    exact consistentB_fromData h asRef d
  | panic => rw [hb] at hok; exact BuildResult.noConfusion hok
  | timeout => rw [hb] at hok; exact BuildResult.noConfusion hok

/-- Witness for C4 on a concrete two-item build with a concrete hash. -/
theorem fromVec_consistent_witness :
    MerkleTree.fromVec (fun b => [b.length]) id [[5], [7]] =
      .ok { root := Node.node (MerkleNode.new (fun b => [b.length])
        (Node.leaf (MerkleLeaf.fromData (fun b => [b.length]) id [5]))
        (Node.leaf (MerkleLeaf.fromData (fun b => [b.length]) id [7]))) } ∧
    Node.consistentB (fun b => [b.length]) id
      (Node.node (MerkleNode.new (fun b => [b.length])
        (Node.leaf (MerkleLeaf.fromData (fun b => [b.length]) id [5]))
        (Node.leaf (MerkleLeaf.fromData (fun b => [b.length]) id [7])))) = true :=
  ⟨rfl, fromVec_consistent (fun b => [b.length]) id [[5], [7]]
    { root := Node.node (MerkleNode.new (fun b => [b.length])
        (Node.leaf (MerkleLeaf.fromData (fun b => [b.length]) id [5]))
        (Node.leaf (MerkleLeaf.fromData (fun b => [b.length]) id [7]))) } rfl⟩

/-- An injective stand-in hash with fixed output length, used to witness the
collision-free hypotheses: the whole input is packed into one number. -/
def packList : List Nat → Nat
| [] => 0
| a :: l => Nat.pair a (packList l) + 1

/-- Helper: the packing is injective. -/
theorem packList_injective : ∀ (x y : List Nat), packList x = packList y → x = y
| [], [], _ => rfl
| [], _ :: _, hxy => by simp [packList] at hxy
| _ :: _, [], hxy => by simp [packList] at hxy
| a :: l, b :: m, hxy => by
    simp only [packList, Nat.add_right_cancel_iff] at hxy
    have hu := congrArg Nat.unpair hxy
    rw [Nat.unpair_pair, Nat.unpair_pair] at hu
    obtain ⟨h1, h2⟩ := Prod.mk.injEq .. ▸ hu
    rw [h1, packList_injective l m h2]

/-- The stand-in hash function: one-element digest holding the packed input. -/
def packHash : HashFn := fun b => [packList b]

/-- Helper: `packHash` never collides. -/
theorem packHash_injective : Function.Injective packHash := by
  intro x y hxy
  simp only [packHash, List.cons.injEq, and_true] at hxy
  exact packList_injective x y hxy

/-- Helper: `packHash` has fixed output length. -/
theorem packHash_fixed_len : ∀ (x y : Bytes), (packHash x).length = (packHash y).length :=
  fun _ _ => rfl

/-- C8: with a hash that is collision-free (injective) and of fixed output
length, the trees built by `from_vec` from `["a","b","c","d"]` and from
`["b","a","c","d"]` (byte strings `[97]`, `[98]`, `[99]`, `[100]`) compare
unequal under tree equality: swapping two distinct items changes the root
digest. -/
theorem fromVec_order_sensitive (h : HashFn) (hinj : Function.Injective h)
    (hlen : ∀ x y : Bytes, (h x).length = (h y).length) :
    ∀ (t1 t2 : MerkleTree Bytes),
      MerkleTree.fromVec h id [[97], [98], [99], [100]] = .ok t1 →
      MerkleTree.fromVec h id [[98], [97], [99], [100]] = .ok t2 →
      MerkleTree.beq t1 t2 = false := by
  intro t1 t2 h1 h2
  have e1 : MerkleTree.fromVec h id [[97], [98], [99], [100]] =
      .ok (quadRoot h id [97] [98] [99] [100]) := rfl
  have e2 : MerkleTree.fromVec h id [[98], [97], [99], [100]] =
      .ok (quadRoot h id [98] [97] [99] [100]) := rfl
  rw [e1] at h1
  rw [e2] at h2
  injection h1 with h1
  injection h2 with h2
  subst h1
  subst h2
  simp only [MerkleTree.beq, quadRoot, MerkleNode.new, Node.hash, MerkleNode.hash,
    MerkleLeaf.fromData, id, beq_eq_false_iff_ne, ne_eq]
  intro heq
  have s1 := hinj heq
  have s2 := (List.append_inj s1 (hlen _ _)).1
  have s3 := hinj s2
  have s4 := (List.append_inj s3 (hlen _ _)).1
  have s5 := hinj s4
  simp at s5

/-- Witness for C8 with the packing hash, which is injective and of fixed
output length. -/
theorem fromVec_order_sensitive_witness :
    MerkleTree.beq (quadRoot packHash id [97] [98] [99] [100])
      (quadRoot packHash id [98] [97] [99] [100]) = false :=
  fromVec_order_sensitive packHash packHash_injective packHash_fixed_len
    (quadRoot packHash id [97] [98] [99] [100])
    (quadRoot packHash id [98] [97] [99] [100]) rfl rfl

/-- The derived `PartialEq for MerkleLeaf`: both fields compared. -/
def MerkleLeaf.beqL {α : Type} [DecidableEq α] (x y : MerkleLeaf α) : Bool :=
  decide (x.hash = y.hash) && decide (x.data = y.data)

mutual

/-- The derived `PartialEq for Node`: same variant, equal payload. -/
def Node.beqN {α : Type} [DecidableEq α] : Node α → Node α → Bool
| .node a, .node b => MerkleNode.beqM a b
| .leaf a, .leaf b => MerkleLeaf.beqL a b
| _, _ => false

/-- The derived `PartialEq for MerkleNode`: hash, left and right compared. -/
def MerkleNode.beqM {α : Type} [DecidableEq α] : MerkleNode α → MerkleNode α → Bool
| .mk h1 l1 r1, .mk h2 l2 r2 =>
    decide (h1 = h2) && Node.beqN l1 l2 && Node.beqN r1 r2

end

/-- Helper: leaf comparison is structural equality. -/
theorem beqL_iff {α : Type} [DecidableEq α] :
    ∀ (x y : MerkleLeaf α), MerkleLeaf.beqL x y = true ↔ x = y
| ⟨hx, dx⟩, ⟨hy, dy⟩ => by simp [MerkleLeaf.beqL]

mutual

/-- Helper: entry comparison is structural equality. -/
theorem beqN_iff {α : Type} [DecidableEq α] :
    ∀ (x y : Node α), Node.beqN x y = true ↔ x = y
| .node a, .node b => by simp [Node.beqN, beqM_iff a b]
| .node a, .leaf b => by simp [Node.beqN]
| .leaf a, .node b => by simp [Node.beqN]
| .leaf a, .leaf b => by simp [Node.beqN, beqL_iff a b]

/-- Helper: internal-node comparison is structural equality. -/
theorem beqM_iff {α : Type} [DecidableEq α] :
    ∀ (x y : MerkleNode α), MerkleNode.beqM x y = true ↔ x = y
| .mk h1 l1 r1, .mk h2 l2 r2 => by
    simp [MerkleNode.beqM, beqN_iff l1 l2, beqN_iff r1 r2, and_assoc]

end

/-- C10: equality on individual entries is full structural field-by-field
comparison for `Node`, `MerkleNode` and `MerkleLeaf`, hence strictly finer
than tree equality: two leaf entries with equal digests but different stored
data are unequal as entries while the trees rooted at them are equal. -/
theorem entry_eq_structural :
    (∀ (α : Type) [DecidableEq α] (x y : Node α), Node.beqN x y = true ↔ x = y) ∧
    (∀ (α : Type) [DecidableEq α] (x y : MerkleNode α),
      MerkleNode.beqM x y = true ↔ x = y) ∧
    (∀ (α : Type) [DecidableEq α] (x y : MerkleLeaf α),
      MerkleLeaf.beqL x y = true ↔ x = y) ∧
    (Node.beqN (Node.leaf { hash := [0], data := ([1] : Bytes) })
      (Node.leaf { hash := [0], data := ([2] : Bytes) }) = false ∧
     MerkleTree.beq { root := Node.leaf { hash := [0], data := ([1] : Bytes) } }
      { root := Node.leaf { hash := [0], data := ([2] : Bytes) } } = true) :=
  ⟨fun _ => beqN_iff, fun _ => beqM_iff, fun _ => beqL_iff, by decide, rfl⟩
